import Mathlib

/-!
Shallow embedding of the Go package `concurrent_hashmap` (src/map.go) and
verification of its specification claims.

The Go code is a sharded hash map.  Every operation first routes the key to a
shard via `getShard` (FNV-1a over `fmt.Sprintf("%v", key)` masked with
`shardMask`) and then works on that shard's built-in Go map.

Modelling decisions:
* A shard's Go map is modelled as an association list with the usual
  insert-or-overwrite / lookup / remove operations (a Go map never holds a key
  twice; `keysDistinct` names that invariant where a proof needs it).
* The stringification `fmt.Sprintf("%v", reflect.ValueOf(key))` is a parameter
  `rp : K → String` of every routing operation, since it is ambient Go
  behaviour depending on the key type `K`.
* Machine integers: FNV-1a is computed on `Nat` with explicit `% 2 ^ 32`;
  `uint32(shardCount) - 1` is computed with explicit wrap-around.
* Go's index-out-of-range panic on `c.shards[...]` is modelled by `Option`:
  `Get`, `Set` and `Delete` return `none` exactly when the masked index falls
  outside the shard slice (possible only for a zero-shard container).
* Locks are irrelevant to the sequential functional claims and are erased.
-/

set_option autoImplicit false
set_option linter.unusedSectionVars false

namespace ConcurrentHashmap

/-! ### Byte-level fingerprint: `hash/fnv` New32a over the UTF-8 bytes of the key string -/

/-- UTF-8 encoding of one code point, as the list of its byte values. -/
def utf8Bytes (c : Nat) : List Nat :=
  if c < 0x80 then [c]
  else if c < 0x800 then [0xC0 ||| (c >>> 6), 0x80 ||| (c &&& 0x3F)]
  else if c < 0x10000 then
    [0xE0 ||| (c >>> 12), 0x80 ||| ((c >>> 6) &&& 0x3F), 0x80 ||| (c &&& 0x3F)]
  else
    [0xF0 ||| (c >>> 18), 0x80 ||| ((c >>> 12) &&& 0x3F),
     0x80 ||| ((c >>> 6) &&& 0x3F), 0x80 ||| (c &&& 0x3F)]

/-- The UTF-8 bytes of a string, the bytes Go writes into the FNV hasher. -/
def strBytes (s : String) : List Nat :=
  (s.data.map (fun c => utf8Bytes c.toNat)).flatten

/-- 32-bit FNV-1a of a string: `h := fnv.New32a(); h.Write(bytes); h.Sum32()`.
Offset basis 2166136261, prime 16777619, arithmetic modulo `2 ^ 32`. -/
def fnv32a (s : String) : Nat :=
  (strBytes s).foldl (fun h b => ((h ^^^ b) * 16777619) % 2 ^ 32) 2166136261

/-! ### Association-list model of one shard's built-in Go map -/

variable {K : Type} {V : Type} [DecidableEq K]

/-- Go map lookup `v, ok := m[key]`: the value stored at `key`, if present. -/
def listGet : List (K × V) → K → Option V
  | [], _ => none
  | (a, b) :: t, k => if a = k then some b else listGet t k

/-- Go map assignment `m[key] = value`: overwrite the entry for `key` if
present, otherwise add one. -/
def listInsert : List (K × V) → K → V → List (K × V)
  | [], k, v => [(k, v)]
  | (a, b) :: t, k, v => if a = k then (k, v) :: t else (a, b) :: listInsert t k v

/-- Go map removal `delete(m, key)`: drop the entry for `key` (a Go map holds a
key at most once, so dropping every occurrence models it). -/
def listErase : List (K × V) → K → List (K × V)
  | [], _ => []
  | (a, b) :: t, k => if a = k then listErase t k else (a, b) :: listErase t k

/-- Number of entries whose key is `k`; `1` on every list modelling an actual
Go map state that contains `k`. -/
def countKeyList : List (K × V) → K → Nat
  | [], _ => 0
  | (a, _) :: t, k => (if a = k then 1 else 0) + countKeyList t k

/-- The keys of the list are pairwise distinct (true of every Go map). -/
def keysDistinct : List (K × V) → Bool
  | [] => true
  | p :: t => (t.all fun q => decide (p.1 ≠ q.1)) && keysDistinct t

/-- `maps.EqualFunc(m1, m2, eq)`: the two maps contain the same keys, and `eq`
holds for the pair of values at every key. -/
def mapsEqualFunc (eq : V → V → Bool) (l1 l2 : List (K × V)) : Bool :=
  (l1.all fun p =>
    match listGet l2 p.1 with
    | some w => eq p.2 w
    | none => false) &&
  (l2.all fun p => (listGet l1 p.1).isSome)

/-! ### The container (src/map.go lines 12-33) -/

/-- `type shard[K comparable, V any] struct { sync.RWMutex; items map[K]V }`
(the lock is erased). -/
structure Shard (K V : Type) where
  items : List (K × V)
deriving DecidableEq

/-- `type ConcurrentHashMap[K comparable, V any] struct { shards []*shard[K, V]; shardMask uint32 }` -/
structure ConcurrentHashMap (K V : Type) where
  shards : List (Shard K V)
  shardMask : Nat
deriving DecidableEq

/-- Body of `NewConcurrentHashMap` once `make([]*shard[K,V], shardCount)` has
succeeded (`shardCount ≥ 0`): `shardCount` empty shards and
`shardMask = uint32(shardCount) - 1` with 32-bit wrap-around. -/
def newCHM (K V : Type) (n : Nat) : ConcurrentHashMap K V :=
  { shards := List.replicate n { items := [] },
    shardMask := (n % 2 ^ 32 + (2 ^ 32 - 1)) % 2 ^ 32 }

/-- `func NewConcurrentHashMap[K comparable, V any](shardCount int)`.
`make` panics on a negative length (modelled `none`); otherwise a container is
returned unconditionally — the function has no error result. -/
def NewConcurrentHashMap (K V : Type) (n : Int) : Option (ConcurrentHashMap K V) :=
  if n < 0 then none else some (newCHM K V n.toNat)

/-- `func (c *ConcurrentHashMap[K, V]) getShard(key K) *shard[K, V]` — the
index of the shard the key is routed to:
`fnv32a(fmt.Sprintf("%v", key)) & c.shardMask`. -/
def getShard (rp : K → String) (c : ConcurrentHashMap K V) (key : K) : Nat :=
  fnv32a (rp key) &&& c.shardMask

/-- `func (c *ConcurrentHashMap[K, V]) Get(key K) (V, bool)`; `some v` models
`(v, true)`, `none` models `(zero, false)`.  An out-of-range routed index
(Go panic, zero-shard container only) also yields `none`. -/
def Get (rp : K → String) (c : ConcurrentHashMap K V) (key : K) : Option V :=
  (c.shards[getShard rp c key]?).bind fun sh => listGet sh.items key

/-- The container with shard `i` replaced: the in-place mutation of one shard's
Go map, seen as a whole-container state change. -/
def setShard (c : ConcurrentHashMap K V) (i : Nat) (sh : Shard K V) :
    ConcurrentHashMap K V :=
  { c with shards := c.shards.set i sh }

/-- `func (c *ConcurrentHashMap[K, V]) Set(key K, value V)`: route, then
insert-or-overwrite in that shard.  `none` models the Go index panic. -/
def Set (rp : K → String) (c : ConcurrentHashMap K V) (key : K) (value : V) :
    Option (ConcurrentHashMap K V) :=
  (c.shards[getShard rp c key]?).map fun sh =>
    setShard c (getShard rp c key) { items := listInsert sh.items key value }

/-- `func (c *ConcurrentHashMap[K, V]) Delete(key K)`: route, then remove from
that shard.  `none` models the Go index panic. -/
def Delete (rp : K → String) (c : ConcurrentHashMap K V) (key : K) :
    Option (ConcurrentHashMap K V) :=
  (c.shards[getShard rp c key]?).map fun sh =>
    setShard c (getShard rp c key) { items := listErase sh.items key }

/-- Entries the visitor is applied to inside one shard, paired with the
continue flag: `false` once the visitor has returned `false`.  Mirrors the
inner loop of `Range`: the entry on which the visitor returns `false` has
still been visited, nothing after it is. -/
def visitShard (f : K → V → Bool) : List (K × V) → List (K × V) × Bool
  | [] => ([], true)
  | (k, v) :: t =>
    if f k v then
      ((k, v) :: (visitShard f t).1, (visitShard f t).2)
    else ([(k, v)], false)

/-- Shard loop of `Range`: walk shards in index order, stop as soon as a
visitor call returned `false`. -/
def rangeShards (f : K → V → Bool) : List (Shard K V) → List (K × V)
  | [] => []
  | sh :: t =>
    if (visitShard f sh.items).2 then (visitShard f sh.items).1 ++ rangeShards f t
    else (visitShard f sh.items).1

/-- `func (c *ConcurrentHashMap[K, V]) Range(f func(key K, value V) bool)`:
the sequence of entries on which `f` is invoked, in invocation order.
(The Go function returns nothing; its observable behaviour is exactly this
sequence of visitor invocations.) -/
def Range (f : K → V → Bool) (c : ConcurrentHashMap K V) : List (K × V) :=
  rangeShards f c.shards

/-- All live entries of the container, shard by shard in index order. -/
def allEntries (c : ConcurrentHashMap K V) : List (K × V) :=
  (c.shards.map fun s => s.items).flatten

/-- Reference shape of a halting traversal: the longest prefix on which the
visitor keeps returning `true`, plus the entry on which it first returns
`false` (that entry is still visited). -/
def takeThroughFalse (f : K → V → Bool) : List (K × V) → List (K × V)
  | [] => []
  | p :: t => if f p.1 p.2 then p :: takeThroughFalse f t else [p]

/-- `func (c *ConcurrentHashMap[K, V]) Collect() map[K]V`:
`maps.Collect(c.All())` — fold every yielded entry into a fresh map. -/
def Collect (c : ConcurrentHashMap K V) : List (K × V) :=
  (allEntries c).foldl (fun m p => listInsert m p.1 p.2) []

/-- `func (c *ConcurrentHashMap[K, V]) Clone() *ConcurrentHashMap[K, V]`:
`NewConcurrentHashMap(len(c.shards))`, then each new shard's items replaced by
`maps.Clone` of the source shard's items. -/
def Clone (c : ConcurrentHashMap K V) : ConcurrentHashMap K V :=
  { newCHM K V c.shards.length with
    shards := c.shards.map fun s => { items := s.items } }

/-- `func (c *ConcurrentHashMap[K, V]) EqualFunc(other, eq) bool`: `false` on
differing shard counts, otherwise `maps.EqualFunc` on every index-aligned pair
of shards. -/
def EqualFunc (c o : ConcurrentHashMap K V) (eq : V → V → Bool) : Bool :=
  if c.shards.length = o.shards.length then
    (List.zip c.shards o.shards).all fun p => mapsEqualFunc eq p.1.items p.2.items
  else false

/-- Number of entries of the whole container whose key is `k` (summed over all
shards). -/
def countKey (c : ConcurrentHashMap K V) (k : K) : Nat :=
  (c.shards.map fun s => countKeyList s.items k).sum

/-- Every shard's keys are pairwise distinct — true of every state reachable
through the Go API, since each shard is a Go map. -/
def ShardsNoDup (c : ConcurrentHashMap K V) : Bool :=
  c.shards.all fun s => keysDistinct s.items

/-- Every entry sits in the shard its key routes to — true of every state
reachable through the Go API, since every write routes through `getShard`. -/
def routedOK (rp : K → String) (c : ConcurrentHashMap K V) : Bool :=
  (List.range c.shards.length).all fun i =>
    match c.shards[i]? with
    | some sh => sh.items.all fun p => decide (getShard rp c p.1 = i)
    | none => true

/-! ### Go `float64` key semantics at signed zero

The two Go `float64` values `+0.0` and `math.Copysign(0, -1)`.  Go's `==` on
`float64` is IEEE-754 equality, under which the two zeros are equal, and a Go
map therefore treats them as the same key; `fmt.Sprintf("%v", ·)` renders them
as `"0"` and `"-0"` respectively. -/

/-- The two signed-zero values of Go's `float64`. -/
inductive GoFloatZero : Type
  | pos
  | neg
deriving DecidableEq

/-- Go `==` (IEEE-754 equality) restricted to the two zeros: always true. -/
def GoFloatZero.goEq : GoFloatZero → GoFloatZero → Bool := fun _ _ => true

/-- `fmt.Sprintf("%v", reflect.ValueOf(·))` for the two zeros. -/
def GoFloatZero.goRepr : GoFloatZero → String
  | .pos => "0"
  | .neg => "-0"

/-! ### List-indexing helpers -/

theorem lt_of_some {α : Type} : ∀ {l : List α} {i : Nat} {a : α},
    l[i]? = some a → i < l.length := by
  intro l
  induction l with
  | nil => intro i a h; simp at h
  | cons x t ih =>
    intro i a h
    cases i with
    | zero => simp
    | succ j =>
      simp only [List.getElem?_cons_succ] at h
      simpa using Nat.succ_lt_succ (ih h)

theorem mem_of_some {α : Type} : ∀ {l : List α} {i : Nat} {a : α},
    l[i]? = some a → a ∈ l := by
  intro l
  induction l with
  | nil => intro i a h; simp at h
  | cons x t ih =>
    intro i a h
    cases i with
    | zero => simp at h; simp [h]
    | succ j =>
      simp only [List.getElem?_cons_succ] at h
      exact List.mem_cons_of_mem x (ih h)

theorem getset_same {α : Type} : ∀ (l : List α) (i : Nat) (a : α),
    i < l.length → (l.set i a)[i]? = some a := by
  intro l
  induction l with
  | nil => intro i a h; simp at h
  | cons x t ih =>
    intro i a h
    cases i with
    | zero => simp
    | succ j =>
      simp only [List.set_cons_succ, List.getElem?_cons_succ]
      exact ih j a (by simpa using Nat.lt_of_succ_lt_succ h)

theorem getset_other {α : Type} : ∀ (l : List α) (i j : Nat) (a : α),
    i ≠ j → (l.set i a)[j]? = l[j]? := by
  intro l
  induction l with
  | nil => intro i j a _; simp
  | cons x t ih =>
    intro i j a hne
    cases i with
    | zero =>
      cases j with
      | zero => exact absurd rfl hne
      | succ m => simp
    | succ n =>
      cases j with
      | zero => simp
      | succ m =>
        simp only [List.set_cons_succ, List.getElem?_cons_succ]
        exact ih n m a (fun he => hne (by rw [he]))

theorem setsame_eq {α : Type} : ∀ {l : List α} {i : Nat} {a : α},
    l[i]? = some a → l.set i a = l := by
  intro l
  induction l with
  | nil => intro i a h; simp at h
  | cons x t ih =>
    intro i a h
    cases i with
    | zero => simp at h; simp [h]
    | succ j =>
      simp only [List.getElem?_cons_succ] at h
      simp [List.set_cons_succ, ih h]

/-! ### Association-list lemmas -/

theorem listGet_insert_self (l : List (K × V)) (k : K) (v : V) :
    listGet (listInsert l k v) k = some v := by
  induction l with
  | nil => simp [listInsert, listGet]
  | cons p t ih =>
    by_cases hp : p.1 = k
    · simp [listInsert, hp, listGet]
    · simp [listInsert, hp, listGet, ih]

theorem listGet_insert_other (l : List (K × V)) {k kx : K} (v : V) (h : kx ≠ k) :
    listGet (listInsert l k v) kx = listGet l kx := by
  have hkx : ¬ k = kx := fun he => h he.symm
  induction l with
  | nil => simp [listInsert, listGet, hkx]
  | cons p t ih =>
    by_cases hp : p.1 = k
    · have hpx : ¬ p.1 = kx := by rw [hp]; exact hkx
      simp [listInsert, hp, listGet, hkx, hpx]
    · simp [listInsert, hp, listGet, ih]

theorem listGet_erase_self (l : List (K × V)) (k : K) :
    listGet (listErase l k) k = none := by
  induction l with
  | nil => simp [listErase, listGet]
  | cons p t ih =>
    by_cases hp : p.1 = k
    · simp [listErase, hp, ih]
    · simp [listErase, hp, listGet, ih]

theorem listGet_erase_other (l : List (K × V)) {k kx : K} (h : kx ≠ k) :
    listGet (listErase l k) kx = listGet l kx := by
  induction l with
  | nil => simp [listErase]
  | cons p t ih =>
    by_cases hp : p.1 = k
    · have hk : ¬ k = kx := fun he => h he.symm
      have hpx : ¬ p.1 = kx := by rw [hp]; exact hk
      simp [listErase, hp, listGet, hpx, hk, ih]
    · simp [listErase, hp, listGet, ih]

theorem listErase_of_get_none (l : List (K × V)) (k : K)
    (h : listGet l k = none) : listErase l k = l := by
  induction l with
  | nil => simp [listErase]
  | cons p t ih =>
    by_cases hp : p.1 = k
    · simp [listGet, hp] at h
    · simp [listGet, hp] at h
      simp [listErase, hp, ih h]

theorem listInsert_idem (l : List (K × V)) (k : K) (v : V) :
    listInsert (listInsert l k v) k v = listInsert l k v := by
  induction l with
  | nil => simp [listInsert]
  | cons p t ih =>
    by_cases hp : p.1 = k
    · simp [listInsert, hp]
    · simp [listInsert, hp, ih]

theorem countKeyList_insert_of_get_some (l : List (K × V)) (k : K) (v w : V)
    (h : listGet l k = some w) :
    countKeyList (listInsert l k v) k = countKeyList l k := by
  induction l with
  | nil => simp [listGet] at h
  | cons p t ih =>
    by_cases hp : p.1 = k
    · simp [listInsert, hp, countKeyList]
    · simp [listGet, hp] at h
      simp [listInsert, hp, countKeyList, ih h]

theorem countKeyList_eq_zero (l : List (K × V)) (k : K)
    (h : ∀ p ∈ l, p.1 ≠ k) : countKeyList l k = 0 := by
  induction l with
  | nil => simp [countKeyList]
  | cons p t ih =>
    have hp : p.1 ≠ k := h p (List.mem_cons_self p t)
    simp [countKeyList, hp]
    exact ih fun q hq => h q (List.mem_cons_of_mem p hq)

theorem countKeyList_insert_one (l : List (K × V)) (k : K) (v : V)
    (h : keysDistinct l = true) : countKeyList (listInsert l k v) k = 1 := by
  induction l with
  | nil => simp [listInsert, countKeyList]
  | cons p t ih =>
    simp only [keysDistinct, Bool.and_eq_true, List.all_eq_true,
      decide_eq_true_eq] at h
    by_cases hp : p.1 = k
    · have hz : countKeyList t k = 0 :=
        countKeyList_eq_zero t k fun q hq => by
          have := h.1 q hq
          rw [hp] at this
          exact fun he => this he.symm
      simp [listInsert, hp, countKeyList, hz]
    · simp [listInsert, hp, countKeyList, ih h.2]

theorem listGet_of_mem_distinct {l : List (K × V)} {k : K} {v : V}
    (hd : keysDistinct l = true) (hm : (k, v) ∈ l) : listGet l k = some v := by
  induction l with
  | nil => simp at hm
  | cons p t ih =>
    simp only [keysDistinct, Bool.and_eq_true, List.all_eq_true,
      decide_eq_true_eq] at hd
    rcases List.mem_cons.mp hm with he | ht
    · rw [← he]
      simp [listGet]
    · have hp : p.1 ≠ k := by
        have := hd.1 (k, v) ht
        simpa using this
      simp [listGet, hp, ih hd.2 ht]

/-! ### Sums of per-shard counts -/

theorem sum_map_zero {α : Type} (f : α → Nat) :
    ∀ (l : List α), (∀ (j : Nat) (x : α), l[j]? = some x → f x = 0) →
      (l.map f).sum = 0 := by
  intro l
  induction l with
  | nil => intro _; simp
  | cons x t ih =>
    intro h
    have hx : f x = 0 := h 0 x (by simp)
    have ht : (t.map f).sum = 0 :=
      ih fun j y hy => h (j + 1) y (by simpa using hy)
    simp [hx, ht]

theorem sum_map_set_eq {α : Type} (f : α → Nat) :
    ∀ (l : List α) (i : Nat) {a : α} (b : α), l[i]? = some a → f b = f a →
      ((l.set i b).map f).sum = (l.map f).sum := by
  intro l
  induction l with
  | nil => intro i a b h _; simp at h
  | cons x t ih =>
    intro i a b h hf
    cases i with
    | zero => simp at h; simp [h ▸ hf]
    | succ j =>
      simp only [List.getElem?_cons_succ] at h
      simp only [List.set_cons_succ, List.map_cons, List.sum_cons, ih j b h hf]

theorem sum_map_set_single {α : Type} (f : α → Nat) :
    ∀ (l : List α) (i : Nat) {a : α} (b : α), l[i]? = some a →
      (∀ (j : Nat) (x : α), j ≠ i → l[j]? = some x → f x = 0) →
      ((l.set i b).map f).sum = f b := by
  intro l
  induction l with
  | nil => intro i a b h _; simp at h
  | cons x t ih =>
    intro i a b h hz
    cases i with
    | zero =>
      have ht : (t.map f).sum = 0 :=
        sum_map_zero f t fun j y hy =>
          hz (j + 1) y (Nat.succ_ne_zero j) (by simpa using hy)
      simp [ht]
    | succ n =>
      simp only [List.getElem?_cons_succ] at h
      have hx : f x = 0 := hz 0 x (Ne.symm (Nat.succ_ne_zero n)) (by simp)
      have hrec : ((t.set n b).map f).sum = f b :=
        ih n b h fun j y hj hy =>
          hz (j + 1) y (fun he => hj (Nat.succ_injective he)) (by simpa using hy)
      simp only [List.set_cons_succ, List.map_cons, List.sum_cons, hx, hrec,
        Nat.zero_add]

/-! ### Operation-level lemmas -/

theorem setShard_shards (c : ConcurrentHashMap K V) (i : Nat) (sh : Shard K V) :
    (setShard c i sh).shards = c.shards.set i sh := rfl

theorem setShard_mask (c : ConcurrentHashMap K V) (i : Nat) (sh : Shard K V) :
    (setShard c i sh).shardMask = c.shardMask := rfl

theorem getShard_setShard (rp : K → String) (c : ConcurrentHashMap K V)
    (i : Nat) (sh : Shard K V) (k : K) :
    getShard rp (setShard c i sh) k = getShard rp c k := rfl

theorem Set_elim {rp : K → String} {c : ConcurrentHashMap K V} {k : K} {v : V}
    {c1 : ConcurrentHashMap K V} (h : Set rp c k v = some c1) :
    ∃ sh, c.shards[getShard rp c k]? = some sh ∧
      c1 = setShard c (getShard rp c k) { items := listInsert sh.items k v } := by
  unfold Set at h
  cases hs : c.shards[getShard rp c k]? with
  | none => rw [hs] at h; simp at h
  | some sh =>
    rw [hs] at h
    simp at h
    exact ⟨sh, rfl, h.symm⟩

theorem Delete_elim {rp : K → String} {c : ConcurrentHashMap K V} {k : K}
    {c1 : ConcurrentHashMap K V} (h : Delete rp c k = some c1) :
    ∃ sh, c.shards[getShard rp c k]? = some sh ∧
      c1 = setShard c (getShard rp c k) { items := listErase sh.items k } := by
  unfold Delete at h
  cases hs : c.shards[getShard rp c k]? with
  | none => rw [hs] at h; simp at h
  | some sh =>
    rw [hs] at h
    simp at h
    exact ⟨sh, rfl, h.symm⟩

theorem Get_setShard_routed (rp : K → String) (c : ConcurrentHashMap K V)
    (i : Nat) (sh2 : Shard K V) (k : K) (hi : i < c.shards.length)
    (hk : getShard rp c k = i) :
    Get rp (setShard c i sh2) k = listGet sh2.items k := by
  unfold Get
  rw [getShard_setShard, hk, setShard_shards, getset_same c.shards i sh2 hi]
  rfl

theorem Get_setShard_offroute (rp : K → String) (c : ConcurrentHashMap K V)
    (i : Nat) (sh2 : Shard K V) (k : K) (hk : getShard rp c k ≠ i) :
    Get rp (setShard c i sh2) k = Get rp c k := by
  unfold Get
  rw [getShard_setShard, setShard_shards,
    getset_other c.shards i (getShard rp c k) sh2 (fun he => hk he.symm)]

/-- Core of C4, shared by several claim proofs: a successful `Set` makes `Get`
find the value just written. -/
theorem Get_after_Set {rp : K → String} {c : ConcurrentHashMap K V} {k : K}
    {v : V} {c1 : ConcurrentHashMap K V} (h : Set rp c k v = some c1) :
    Get rp c1 k = some v := by
  obtain ⟨sh, hs, rfl⟩ := Set_elim h
  rw [Get_setShard_routed rp c _ _ k (lt_of_some hs) rfl]
  exact listGet_insert_self sh.items k v

/-! ### Range traversal lemmas -/

theorem visitShard_spec (f : K → V → Bool) :
    ∀ l : List (K × V),
      visitShard f l = (takeThroughFalse f l, l.all fun p => f p.1 p.2) := by
  intro l
  induction l with
  | nil => simp [visitShard, takeThroughFalse]
  | cons p t ih =>
    obtain ⟨k, v⟩ := p
    cases hf : f k v with
    | true => simp [visitShard, takeThroughFalse, hf, ih]
    | false => simp [visitShard, takeThroughFalse, hf]

theorem takeThroughFalse_all_true (f : K → V → Bool) :
    ∀ l : List (K × V), (∀ p ∈ l, f p.1 p.2 = true) → takeThroughFalse f l = l := by
  intro l
  induction l with
  | nil => intro _; rfl
  | cons p t ih =>
    intro h
    have hp : f p.1 p.2 = true := h p (List.mem_cons_self p t)
    simp [takeThroughFalse, hp, ih fun q hq => h q (List.mem_cons_of_mem p hq)]

theorem takeThroughFalse_append (f : K → V → Bool) :
    ∀ l1 l2 : List (K × V),
      takeThroughFalse f (l1 ++ l2) =
        if (l1.all fun p => f p.1 p.2) = true then l1 ++ takeThroughFalse f l2
        else takeThroughFalse f l1 := by
  intro l1 l2
  induction l1 with
  | nil => simp
  | cons p t ih =>
    cases hf : f p.1 p.2 with
    | true =>
      by_cases ht : (t.all fun q => f q.1 q.2) = true
      · simp [takeThroughFalse, hf, ih, ht]
      · simp [takeThroughFalse, hf, ih, ht]
    | false => simp [takeThroughFalse, hf]

theorem takeThroughFalse_halt (f : K → V → Bool) :
    ∀ (l pre : List (K × V)) (p : K × V) (post : List (K × V)),
      takeThroughFalse f l = pre ++ p :: post → f p.1 p.2 = false → post = [] := by
  intro l
  induction l with
  | nil =>
    intro pre p post h _
    cases pre <;> simp [takeThroughFalse] at h
  | cons q t ih =>
    intro pre p post h hf
    cases hq : f q.1 q.2 with
    | false =>
      rw [takeThroughFalse, if_neg (by simp [hq])] at h
      cases pre with
      | nil =>
        simp only [List.nil_append] at h
        injection h with h1 h2
        exact h2.symm
      | cons a s =>
        simp only [List.cons_append] at h
        injection h with h1 h2
        cases s <;> simp at h2
    | true =>
      rw [takeThroughFalse, if_pos (by simp [hq])] at h
      cases pre with
      | nil =>
        simp only [List.nil_append] at h
        injection h with h1 h2
        rw [← h1, hq] at hf
        simp at hf
      | cons a s =>
        simp only [List.cons_append] at h
        injection h with h1 h2
        exact ih s p post h2 hf

theorem rangeShards_eq (f : K → V → Bool) :
    ∀ ls : List (Shard K V),
      rangeShards f ls = takeThroughFalse f ((ls.map fun s => s.items).flatten) := by
  intro ls
  induction ls with
  | nil => simp [rangeShards, takeThroughFalse]
  | cons sh t ih =>
    cases hall : sh.items.all fun p => f p.1 p.2 with
    | true =>
      have hta : takeThroughFalse f sh.items = sh.items :=
        takeThroughFalse_all_true f sh.items
          (by intro p hp; exact List.all_eq_true.mp hall p hp)
      simp [rangeShards, visitShard_spec, hall, hta, ih, takeThroughFalse_append]
    | false =>
      simp [rangeShards, visitShard_spec, hall, takeThroughFalse_append]

theorem Range_eq_takeThroughFalse (f : K → V → Bool) (c : ConcurrentHashMap K V) :
    Range f c = takeThroughFalse f (allEntries c) :=
  rangeShards_eq f c.shards

/-! ### Clone and EqualFunc lemmas -/

theorem Clone_shards (c : ConcurrentHashMap K V) : (Clone c).shards = c.shards := by
  show c.shards.map (fun s => { items := s.items }) = c.shards
  have he : (fun s : Shard K V => ({ items := s.items } : Shard K V)) = id := by
    funext s; rfl
  rw [he, List.map_id]

theorem zip_self_eq {α : Type} : ∀ {l : List α} {p : α × α},
    p ∈ List.zip l l → p.1 = p.2 := by
  intro l
  induction l with
  | nil => intro p h; simp at h
  | cons x t ih =>
    intro p h
    rw [List.zip_cons_cons] at h
    rcases List.mem_cons.mp h with he | ht
    · rw [he]
    · exact ih ht

theorem zip_self_mem {α : Type} : ∀ {l : List α} {p : α × α},
    p ∈ List.zip l l → p.1 ∈ l := by
  intro l
  induction l with
  | nil => intro p h; simp at h
  | cons x t ih =>
    intro p h
    rw [List.zip_cons_cons] at h
    rcases List.mem_cons.mp h with he | ht
    · rw [he]; exact List.mem_cons_self x t
    · exact List.mem_cons_of_mem x (ih ht)

theorem mapsEqualFunc_refl (eq : V → V → Bool) {l : List (K × V)}
    (hd : keysDistinct l = true) (hrefl : ∀ v, eq v v = true) :
    mapsEqualFunc eq l l = true := by
  unfold mapsEqualFunc
  rw [Bool.and_eq_true, List.all_eq_true, List.all_eq_true]
  constructor
  · intro p hp
    rw [listGet_of_mem_distinct hd (by simpa using hp)]
    exact hrefl p.2
  · intro p hp
    rw [listGet_of_mem_distinct hd (by simpa using hp)]
    rfl

/-! ### Counting and idempotence lemmas -/

/-- Overwriting a key that is already present does not change the number of
entries attributable to that key. -/
theorem countKey_Set_stable {rp : K → String} {c : ConcurrentHashMap K V}
    {k : K} {v w : V} {c1 : ConcurrentHashMap K V}
    (h : Set rp c k v = some c1) (hw : Get rp c k = some w) :
    countKey c1 k = countKey c k := by
  obtain ⟨sh, hs, rfl⟩ := Set_elim h
  unfold Get at hw
  rw [hs] at hw
  simp at hw
  unfold countKey
  rw [setShard_shards]
  exact sum_map_set_eq _ c.shards _ _ hs
    (countKeyList_insert_of_get_some sh.items k v w hw)

/-- On a well-formed container (per-shard distinct keys, every entry in its
routed shard) a successful `Set` leaves exactly one entry for the key. -/
theorem countKey_Set_one {rp : K → String} {c : ConcurrentHashMap K V}
    {k : K} {v : V} {c1 : ConcurrentHashMap K V}
    (h : Set rp c k v = some c1) (hnd : ShardsNoDup c = true)
    (hr : routedOK rp c = true) : countKey c1 k = 1 := by
  obtain ⟨sh, hs, rfl⟩ := Set_elim h
  unfold ShardsNoDup at hnd
  unfold routedOK at hr
  have hkd : keysDistinct sh.items = true := by
    have hmem := mem_of_some hs
    simpa using List.all_eq_true.mp hnd sh hmem
  have hside : ∀ (j : Nat) (x : Shard K V), j ≠ getShard rp c k →
      c.shards[j]? = some x → countKeyList x.items k = 0 := by
    intro j x hj hx
    have hjlt : j < c.shards.length := lt_of_some hx
    have hall := List.all_eq_true.mp hr j (List.mem_range.mpr hjlt)
    rw [hx] at hall
    simp only [List.all_eq_true, decide_eq_true_eq] at hall
    apply countKeyList_eq_zero
    intro p hp hpk
    have hroute := hall p hp
    rw [hpk] at hroute
    exact hj hroute.symm
  unfold countKey
  rw [setShard_shards]
  rw [sum_map_set_single _ c.shards _ _ hs hside]
  exact countKeyList_insert_one sh.items k v hkd

/-- Writing the same (key, value) pair again reproduces the same state. -/
theorem Set_idem {rp : K → String} {c : ConcurrentHashMap K V} {k : K} {v : V}
    {c1 : ConcurrentHashMap K V} (h : Set rp c k v = some c1) :
    Set rp c1 k v = some c1 := by
  obtain ⟨sh, hs, rfl⟩ := Set_elim h
  have hlt := lt_of_some hs
  unfold Set
  rw [getShard_setShard, setShard_shards, getset_same c.shards _ _ hlt]
  simp [setShard, List.set_set, listInsert_idem]

/-! ### The claims -/

/-- C1: the claim says that keys the key type's equality considers equal always
route to the same shard, so a key lives in exactly one shard.  The code breaks
this: the Go `float64` keys `+0.0` and `-0.0` are equal under Go `==` (and are
one single key for a Go map), yet `fmt.Sprintf("%v", ·)` renders them `"0"`
and `"-0"`, whose FNV-1a fingerprints masked with 15 give shards 15 and 8 on a
16-shard map — and after `Set(+0.0, 1)` then `Set(-0.0, 2)` the same Go key
holds two different values in two different shards. -/
theorem claim_C1_equal_keys_can_split :
    GoFloatZero.goEq .pos .neg = true ∧
    getShard GoFloatZero.goRepr (newCHM GoFloatZero Nat 16) .pos = 15 ∧
    getShard GoFloatZero.goRepr (newCHM GoFloatZero Nat 16) .neg = 8 ∧
    ((Set GoFloatZero.goRepr (newCHM GoFloatZero Nat 16) .pos 1).bind fun c =>
        Set GoFloatZero.goRepr c .neg 2).map
      (fun c => (Get GoFloatZero.goRepr c .pos, Get GoFloatZero.goRepr c .neg)) =
      some (some 1, some 2) := by decide

/-- C2: the claim says a non-power-of-two shard count is either rejected at
construction or routed with true modulo reduction.  The code does neither:
`NewConcurrentHashMap(3)` is accepted, `shardMask` becomes `2`, and the key
`0` (string `"0"`, FNV-1a `890022063`) is routed to shard
`890022063 AND 2 = 2`, while true modulo reduction gives `890022063 mod 3 = 0`. -/
theorem claim_C2_bitmask_not_modulo :
    NewConcurrentHashMap Nat Nat 3 = some (newCHM Nat Nat 3) ∧
    (newCHM Nat Nat 3).shardMask = 2 ∧
    getShard (fun n : Nat => toString n) (newCHM Nat Nat 3) 0 = 2 ∧
    fnv32a (toString (0 : Nat)) % 3 = 0 := by decide

/-- C3: the claim says construction fails fast with a descriptive error for
`shardCount ≤ 0` and returns exactly `shardCount` empty shards for
`shardCount ≥ 1`.  The code has no error path at all: `shardCount = 0` returns
a container instance with zero shards and mask `2^32 - 1`, on which every
routed operation hits the index-out-of-range panic (modelled `none`);
a negative count panics inside `make` rather than returning an error.  The
positive half does hold (shown here for 5 shards). -/
theorem claim_C3_zero_count_not_rejected :
    NewConcurrentHashMap Nat Nat 0 = some (newCHM Nat Nat 0) ∧
    (newCHM Nat Nat 0).shards = [] ∧
    (newCHM Nat Nat 0).shardMask = 2 ^ 32 - 1 ∧
    Get (fun n : Nat => toString n) (newCHM Nat Nat 0) 7 = none ∧
    NewConcurrentHashMap Nat Nat (-1) = none ∧
    (NewConcurrentHashMap Nat Nat 5).map (fun c => c.shards) =
      some (List.replicate 5 { items := [] }) := by decide

/-- C4: immediately after a (non-panicking) `Set(k, v)` on any map state,
`Get(k)` returns `(v, true)`. -/
theorem claim_C4_get_after_set (rp : K → String) (c : ConcurrentHashMap K V)
    (k : K) (v : V) (c1 : ConcurrentHashMap K V) (h : Set rp c k v = some c1) :
    Get rp c1 k = some v :=
  Get_after_Set h

/-- Witness for C4 on a concrete one-shard map. -/
theorem claim_C4_get_after_set_witness :
    Get (fun n : Nat => toString n)
      { shards := [{ items := [(5, 7)] }], shardMask := 0 } 5 = some 7 :=
  claim_C4_get_after_set (fun n : Nat => toString n) (newCHM Nat Nat 1) 5 7
    { shards := [{ items := [(5, 7)] }], shardMask := 0 } (by decide)

/-- C5: after a (non-panicking) `Delete(k)`, `Get(k)` reports not-found; a
second `Delete(k)` succeeds and is a no-op; and deleting an absent key leaves
the map exactly unchanged. -/
theorem claim_C5_delete_absent_noop (rp : K → String) (c : ConcurrentHashMap K V)
    (k : K) (c1 : ConcurrentHashMap K V) (h : Delete rp c k = some c1) :
    Get rp c1 k = none ∧ Delete rp c1 k = some c1 ∧
      (Get rp c k = none → c1 = c) := by
  obtain ⟨sh, hs, rfl⟩ := Delete_elim h
  have hlt : getShard rp c k < c.shards.length := lt_of_some hs
  refine ⟨?_, ?_, ?_⟩
  · rw [Get_setShard_routed rp c _ _ k hlt rfl]
    exact listGet_erase_self sh.items k
  · unfold Delete
    rw [getShard_setShard, setShard_shards, getset_same c.shards _ _ hlt]
    have he : listErase (listErase sh.items k) k = listErase sh.items k :=
      listErase_of_get_none _ k (listGet_erase_self sh.items k)
    simp [setShard, List.set_set, he]
  · intro hg
    unfold Get at hg
    rw [hs] at hg
    simp at hg
    have he : listErase sh.items k = sh.items := listErase_of_get_none _ k hg
    rw [he]
    show setShard c (getShard rp c k) sh = c
    unfold setShard
    rw [setsame_eq hs]

/-- Witness for C5 on a concrete one-shard map holding the key. -/
theorem claim_C5_delete_absent_noop_witness :
    Get (fun n : Nat => toString n)
        ({ shards := [{ items := [] }], shardMask := 0 } :
          ConcurrentHashMap Nat Nat) 3 = none ∧
      Delete (fun n : Nat => toString n)
          ({ shards := [{ items := [] }], shardMask := 0 } :
            ConcurrentHashMap Nat Nat) 3 =
        some { shards := [{ items := [] }], shardMask := 0 } ∧
      (Get (fun n : Nat => toString n)
          ({ shards := [{ items := [(3, 5)] }], shardMask := 0 } :
            ConcurrentHashMap Nat Nat) 3 = none →
        ({ shards := [{ items := [] }], shardMask := 0 } :
            ConcurrentHashMap Nat Nat) =
          { shards := [{ items := [(3, 5)] }], shardMask := 0 }) :=
  claim_C5_delete_absent_noop (fun n : Nat => toString n)
    { shards := [{ items := [(3, 5)] }], shardMask := 0 } 3
    { shards := [{ items := [] }], shardMask := 0 } (by decide)

/-- C6: `Set(k, v1)` then `Set(k, v2)` makes `Get(k)` return `v2` (last write
wins); the number of entries attributable to `k` is unchanged by the second
write, and on a well-formed container (distinct keys per shard, entries in
their routed shards) it is exactly one after either write; re-writing the
identical pair `(k, v1)` reproduces the state exactly (idempotence). -/
theorem claim_C6_last_write_wins (rp : K → String) (c : ConcurrentHashMap K V)
    (k : K) (v1 v2 : V) (c1 c2 : ConcurrentHashMap K V)
    (h1 : Set rp c k v1 = some c1) (h2 : Set rp c1 k v2 = some c2) :
    Get rp c2 k = some v2 ∧
    countKey c2 k = countKey c1 k ∧
    Set rp c1 k v1 = some c1 ∧
    (ShardsNoDup c = true → routedOK rp c = true →
      countKey c1 k = 1 ∧ countKey c2 k = 1) := by
  have hstable : countKey c2 k = countKey c1 k :=
    countKey_Set_stable h2 (Get_after_Set h1)
  refine ⟨Get_after_Set h2, hstable, Set_idem h1, ?_⟩
  intro hnd hr
  have hone : countKey c1 k = 1 := countKey_Set_one h1 hnd hr
  exact ⟨hone, by rw [hstable, hone]⟩

/-- Witness for C6 on a concrete one-shard map. -/
theorem claim_C6_last_write_wins_witness :
    Get (fun n : Nat => toString n)
        { shards := [{ items := [(3, 20)] }], shardMask := 0 } 3 = some 20 ∧
      countKey ({ shards := [{ items := [(3, 10)] }], shardMask := 0 } :
        ConcurrentHashMap Nat Nat) 3 = 1 ∧
      countKey ({ shards := [{ items := [(3, 20)] }], shardMask := 0 } :
        ConcurrentHashMap Nat Nat) 3 = 1 := by
  have h := claim_C6_last_write_wins (fun n : Nat => toString n)
    (newCHM Nat Nat 1) 3 10 20
    { shards := [{ items := [(3, 10)] }], shardMask := 0 }
    { shards := [{ items := [(3, 20)] }], shardMask := 0 }
    (by decide) (by decide)
  exact ⟨h.1, (h.2.2.2 (by decide) (by decide)).1, (h.2.2.2 (by decide) (by decide)).2⟩

/-- C7: with a visitor that always answers `true`, `Range` visits exactly the
live entries (so it invokes the visitor exactly N times on a map with N live
entries); and whenever the visitor answers `false` on some visited entry,
nothing at all is visited after that entry — the traversal halts immediately. -/
theorem claim_C7_range_visits (f : K → V → Bool) (c : ConcurrentHashMap K V) :
    ((∀ k v, f k v = true) → Range f c = allEntries c) ∧
    ((∀ k v, f k v = true) → (Range f c).length = (allEntries c).length) ∧
    (∀ pre p post, Range f c = pre ++ p :: post → f p.1 p.2 = false → post = []) := by
  have hre := Range_eq_takeThroughFalse f c
  refine ⟨?_, ?_, ?_⟩
  · intro hf
    rw [hre]
    exact takeThroughFalse_all_true f (allEntries c) fun p _ => hf p.1 p.2
  · intro hf
    rw [hre, takeThroughFalse_all_true f (allEntries c) fun p _ => hf p.1 p.2]
  · intro pre p post h hf
    rw [hre] at h
    exact takeThroughFalse_halt f (allEntries c) pre p post h hf

/-- Witness for C7 on a single-shard, single-entry map: an always-true visitor
is invoked exactly once; an always-false visitor halts after its first (and
only) invocation. -/
theorem claim_C7_range_visits_witness :
    (Range (fun _ _ => true)
        ({ shards := [{ items := [(0, 0)] }], shardMask := 0 } :
          ConcurrentHashMap Nat Nat)).length = 1 ∧
      (Range (fun _ _ => false)
          ({ shards := [{ items := [(0, 0)] }], shardMask := 0 } :
            ConcurrentHashMap Nat Nat) = [(0, 0)] ∧ ([] : List (Nat × Nat)) = []) := by
  constructor
  · rw [(claim_C7_range_visits (fun _ _ => true)
      { shards := [{ items := [(0, 0)] }], shardMask := 0 }).2.1 fun _ _ => rfl]
    decide
  · exact ⟨by decide,
      (claim_C7_range_visits (fun _ _ => false)
        { shards := [{ items := [(0, 0)] }], shardMask := 0 }).2.2
        [] (0, 0) [] (by decide) rfl⟩

/-- C8: `Clone` produces a container with the same shard count whose entries,
and hence whose `Collect` snapshot, coincide with the source's.  (Storage
independence — `maps.Clone` copying rather than aliasing each shard's map — is
a memory-aliasing property with no content in this pure embedding, where every
derived state is a fresh value.) -/
theorem claim_C8_clone_equal_collect (c : ConcurrentHashMap K V) :
    (Clone c).shards.length = c.shards.length ∧
    allEntries (Clone c) = allEntries c ∧
    Collect (Clone c) = Collect c := by
  have h := Clone_shards c
  refine ⟨by rw [h], ?_, ?_⟩
  · unfold allEntries
    rw [h]
  · unfold Collect allEntries
    rw [h]

/-- C9: `EqualFunc` of a map with its fresh clone under a reflexive value
equality is `true` (for well-formed per-shard contents); and whenever shard
counts differ, `EqualFunc` is `false` for every value predicate whatsoever —
the contents are never consulted. -/
theorem claim_C9_equalfunc (c : ConcurrentHashMap K V) (eq : V → V → Bool) :
    (ShardsNoDup c = true → (∀ v, eq v v = true) →
      EqualFunc c (Clone c) eq = true) ∧
    (∀ o : ConcurrentHashMap K V, c.shards.length ≠ o.shards.length →
      EqualFunc c o eq = false) := by
  constructor
  · intro hnd hrefl
    unfold ShardsNoDup at hnd
    unfold EqualFunc
    rw [Clone_shards, if_pos rfl, List.all_eq_true]
    intro p hp
    have hfst : p.1 = p.2 := zip_self_eq hp
    have hmem : p.1 ∈ c.shards := zip_self_mem hp
    have hkd : keysDistinct p.1.items = true := by
      simpa using List.all_eq_true.mp hnd p.1 hmem
    show mapsEqualFunc eq p.1.items p.2.items = true
    rw [← hfst]
    exact mapsEqualFunc_refl eq hkd hrefl
  · intro o hlen
    unfold EqualFunc
    rw [if_neg hlen]

/-- Witness for C9 on a concrete one-shard, one-entry map, with Go `==` on the
values as the equality predicate. -/
theorem claim_C9_equalfunc_witness :
    EqualFunc ({ shards := [{ items := [(1, 2)] }], shardMask := 0 } :
        ConcurrentHashMap Nat Nat)
      (Clone { shards := [{ items := [(1, 2)] }], shardMask := 0 })
      (fun a b => a == b) = true ∧
    EqualFunc ({ shards := [{ items := [(1, 2)] }], shardMask := 0 } :
        ConcurrentHashMap Nat Nat)
      { shards := [], shardMask := 0 } (fun a b => a == b) = false :=
  ⟨(claim_C9_equalfunc { shards := [{ items := [(1, 2)] }], shardMask := 0 }
      (fun a b => a == b)).1 (by decide) (fun v => by simp),
   (claim_C9_equalfunc { shards := [{ items := [(1, 2)] }], shardMask := 0 }
      (fun a b => a == b)).2 { shards := [], shardMask := 0 } (by decide)⟩

/-- C10: a (non-panicking) `Set(k, v)` or `Delete(k)` leaves `Get(kx)`
unchanged for every other key `kx ≠ k`: single-key writes have no effect on
any entry but their own. -/
theorem claim_C10_frame (rp : K → String) (c : ConcurrentHashMap K V)
    (k kx : K) (v : V) (c1 c2 : ConcurrentHashMap K V) (hne : kx ≠ k) :
    (Set rp c k v = some c1 → Get rp c1 kx = Get rp c kx) ∧
    (Delete rp c k = some c2 → Get rp c2 kx = Get rp c kx) := by
  constructor
  · intro h
    obtain ⟨sh, hs, rfl⟩ := Set_elim h
    by_cases hi : getShard rp c kx = getShard rp c k
    · rw [Get_setShard_routed rp c _ _ kx (lt_of_some hs) hi]
      rw [listGet_insert_other sh.items v hne]
      unfold Get
      rw [hi, hs]
      rfl
    · exact Get_setShard_offroute rp c _ _ kx hi
  · intro h
    obtain ⟨sh, hs, rfl⟩ := Delete_elim h
    by_cases hi : getShard rp c kx = getShard rp c k
    · rw [Get_setShard_routed rp c _ _ kx (lt_of_some hs) hi]
      rw [listGet_erase_other sh.items hne]
      unfold Get
      rw [hi, hs]
      rfl
    · exact Get_setShard_offroute rp c _ _ kx hi

/-- Witness for C10 on a concrete one-shard map holding two keys. -/
theorem claim_C10_frame_witness :
    (Get (fun n : Nat => toString n)
        { shards := [{ items := [(1, 9), (2, 6)] }], shardMask := 0 } 2 =
      Get (fun n : Nat => toString n)
        { shards := [{ items := [(1, 5), (2, 6)] }], shardMask := 0 } 2) ∧
    (Get (fun n : Nat => toString n)
        { shards := [{ items := [(2, 6)] }], shardMask := 0 } 2 =
      Get (fun n : Nat => toString n)
        { shards := [{ items := [(1, 5), (2, 6)] }], shardMask := 0 } 2) :=
  ⟨(claim_C10_frame (fun n : Nat => toString n)
      { shards := [{ items := [(1, 5), (2, 6)] }], shardMask := 0 } 1 2 9
      { shards := [{ items := [(1, 9), (2, 6)] }], shardMask := 0 }
      { shards := [{ items := [(2, 6)] }], shardMask := 0 }
      (by decide)).1 (by decide),
   (claim_C10_frame (fun n : Nat => toString n)
      { shards := [{ items := [(1, 5), (2, 6)] }], shardMask := 0 } 1 2 9
      { shards := [{ items := [(1, 9), (2, 6)] }], shardMask := 0 }
      { shards := [{ items := [(2, 6)] }], shardMask := 0 }
      (by decide)).2 (by decide)⟩

end ConcurrentHashmap
